import Mathlib

/-
Shallow embedding of the qsv-stats library (src/minmax.rs, src/online.rs,
src/unsorted.rs) and verification of its specification claims.

Modelling conventions:
* `f64` sample values and accumulators are modelled as exact rationals (`ℚ`).
  The spec asks for merge results "within floating-point tolerance"; in the
  exact model the corresponding identities are proved exactly.
* `f64::ln` (used only for the geometric-mean accumulator) has no rational
  counterpart; the embedding is parameterised by an arbitrary function
  `lg : ℚ → ℚ` standing for it.  No theorem below depends on properties of
  `lg`, so every statement quantified over `lg` holds in particular for the
  real logarithm composed with any rounding.
* An `f64` query result that can be NaN is modelled as an `Option ℚ`
  (`none` = NaN); `geometric_mean`, whose result can be NaN, exactly zero, or
  `exp` of a finite value (always positive, hence never zero), is modelled by
  the symbolic type `GeoMean`.
* `u64`/`usize`/`u32` counters are modelled as `ℕ`.  Overflow is unreachable
  for them at realistic input sizes except for the `u32::MAX` sentinel of the
  antimode scan, which is kept literal (`U32MAX`); theorems about it carry
  the hypothesis `length < U32MAX` under which the model is exact.
* Rust's `MinMax<T>` is generic over `PartialOrd`; its comparisons are
  embedded through an explicit Boolean strict-order `ltB : T → T → Bool`
  (`a < b` is `ltB a b`, `a > b` is `ltB b a`, and `Option` comparisons
  follow Rust's derived order where `None < Some _`).
* `Unsorted<T>` is instantiated at `T = ℚ`; the `Partial<T>` adapter is the
  identity there because the order on `ℚ` is already total.  Its parallel
  unstable sort is modelled by `List.insertionSort (· ≤ ·)`: on a totally
  ordered type any correct sort produces the same list.
* Methods that mutate `self` (lazy sorting, the sorted flag) are embedded in
  state-passing style, returning `result × new-state`.
-/

/-! ## MinMax (src/minmax.rs) -/

/-- State of `MinMax<T>`: number of samples, current minimum, current
maximum (`None` when no sample has been seen). -/
structure MinMax (T : Type) where
  len : ℕ
  min : Option T
  max : Option T
deriving DecidableEq

/-- `MinMax::new` / `Default::default`. -/
def MinMax.new (T : Type) : MinMax T := ⟨0, none, none⟩

/-- The `min` update of `MinMax::add`:
`if self.min.as_ref().map_or(true, |v| &sample < v) { self.min = Some(sample) }`. -/
def minUpd (ltB : T → T → Bool) (m : Option T) (sample : T) : Option T :=
  if (match m with | none => true | some v => ltB sample v) then some sample else m

/-- The `max` update of `MinMax::add` (`&sample > v` is `v < sample`). -/
def maxUpd (ltB : T → T → Bool) (m : Option T) (sample : T) : Option T :=
  if (match m with | none => true | some v => ltB v sample) then some sample else m

/-- `MinMax::add`. -/
def MinMax.add (ltB : T → T → Bool) (s : MinMax T) (sample : T) : MinMax T :=
  ⟨s.len + 1, minUpd ltB s.min sample, maxUpd ltB s.max sample⟩

/-- Rust's derived `PartialOrd` on `Option<T>` restricted to `<`:
`None < Some _`, `Some a < Some b ↔ a < b`, nothing is below `None`. -/
def optLt (ltB : T → T → Bool) : Option T → Option T → Bool
  | none, some _ => true
  | some a, some b => ltB a b
  | _, none => false

/-- The `min` combination of `Commute::merge` for `MinMax`:
`if self.min.is_none() || (v.min.is_some() && v.min < self.min) { self.min = v.min }`. -/
def mergeMin (ltB : T → T → Bool) (a b : Option T) : Option T :=
  if a.isNone || (b.isSome && optLt ltB b a) then b else a

/-- The `max` combination of `Commute::merge` for `MinMax`
(`v.max > self.max` is `self.max < v.max`). -/
def mergeMax (ltB : T → T → Bool) (a b : Option T) : Option T :=
  if a.isNone || (b.isSome && optLt ltB a b) then b else a

/-- `Commute::merge` for `MinMax`. -/
def MinMax.merge (ltB : T → T → Bool) (s v : MinMax T) : MinMax T :=
  ⟨s.len + v.len, mergeMin ltB s.min v.min, mergeMax ltB s.max v.max⟩

/-- `FromIterator` for `MinMax`: start from `new` and `add` each sample. -/
def MinMax.ofList (ltB : T → T → Bool) (l : List T) : MinMax T :=
  l.foldl (MinMax.add ltB) (MinMax.new T)

/-- States of `MinMax` reachable from `new()` by `add` and `merge`. -/
inductive MinMax.Reachable (ltB : T → T → Bool) : MinMax T → Prop
  | new : MinMax.Reachable ltB (MinMax.new T)
  | add : ∀ {s : MinMax T} (x : T),
      MinMax.Reachable ltB s → MinMax.Reachable ltB (MinMax.add ltB s x)
  | merge : ∀ {s v : MinMax T},
      MinMax.Reachable ltB s → MinMax.Reachable ltB v →
      MinMax.Reachable ltB (MinMax.merge ltB s v)

/-- A sample domain with IEEE-754 comparison semantics: rationals plus a
NaN element that is incomparable with everything, itself included.  `fpLt`
and `fpLe` are `f64`'s `<` and `<=` (both `false` whenever NaN is
involved). -/
inductive FP
  | nan
  | val (q : ℚ)
deriving DecidableEq

/-- `f64` strict comparison: false on NaN operands. -/
def fpLt : FP → FP → Bool
  | FP.val a, FP.val b => decide (a < b)
  | _, _ => false

/-- `f64` non-strict comparison: false on NaN operands (not reflexive at NaN). -/
def fpLe : FP → FP → Bool
  | FP.val a, FP.val b => decide (a ≤ b)
  | _, _ => false

/-! ## OnlineStats (src/online.rs) -/

/-- Result of `OnlineStats::geometric_mean`, symbolically: NaN, exactly `0.0`
(taken when a zero sample was seen), or `exp` of a finite accumulator value —
which in real arithmetic is strictly positive, hence distinct from `zero`.
(The source additionally returns NaN when the `f64` accumulator has become
infinite or NaN; rational accumulators are always finite.) -/
inductive GeoMean
  | nan
  | zero
  | expOf (x : ℚ)
deriving DecidableEq

/-- State of `OnlineStats` (field names as in the source). -/
structure OnlineStats where
  size : ℕ
  mean : ℚ
  q : ℚ
  harmonic_sum : ℚ
  geometric_sum : ℚ
  has_zero : Bool
  has_negative : Bool
deriving DecidableEq

/-- `OnlineStats::new` / `Default::default`. -/
def OnlineStats.new : OnlineStats := ⟨0, 0, 0, 0, 0, false, false⟩

/-- `OnlineStats::add` (Welford update, harmonic sum, geometric log-sum and
sign flags), with `lg` standing for `f64::ln`. -/
def OnlineStats.add (lg : ℚ → ℚ) (s : OnlineStats) (sample : ℚ) : OnlineStats :=
  let oldmean := s.mean
  let size := s.size + 1
  let delta := sample - oldmean
  let mean := oldmean + delta / (size : ℚ)
  let delta2 := sample - mean
  let q := s.q + delta * delta2
  let harmonic_sum :=
    if sample ≠ 0 then s.harmonic_sum + 1 / sample else s.harmonic_sum
  -- the `if sample == 0 {..} else if sample < 0 {..} else if sample > 0 {..}`
  -- chain of the source, written out per affected field
  let has_zero := if sample = 0 then true else s.has_zero
  let has_negative :=
    if sample = 0 then s.has_negative
    else if sample < 0 then true else s.has_negative
  let geometric_sum :=
    if sample = 0 then s.geometric_sum
    else if sample < 0 then s.geometric_sum
    else if sample > 0 then s.geometric_sum + lg sample else s.geometric_sum
  ⟨size, mean, q, harmonic_sum, geometric_sum, has_zero, has_negative⟩

/-- `Commute::merge` for `OnlineStats`.  The fused multiply-adds of the
source (`s1.mul_add(self.mean, s2 * v.mean)` and
`f64::mul_add(meandiffsq, s1 * s2 / (s1 + s2), 0.0)`) are exact in rational
arithmetic: `mul_add a b c = a * b + c`.  Note that the source combines
`has_negative` with `|=` but does not touch `has_zero`. -/
def OnlineStats.merge (s v : OnlineStats) : OnlineStats :=
  let s1 : ℚ := s.size
  let s2 : ℚ := v.size
  let meandiffsq := (s.mean - v.mean) * (s.mean - v.mean)
  { size := s.size + v.size
    mean := (s1 * s.mean + s2 * v.mean) / (s1 + s2)
    q := s.q + (v.q + (meandiffsq * (s1 * s2 / (s1 + s2)) + 0))
    harmonic_sum := s.harmonic_sum + v.harmonic_sum
    geometric_sum := s.geometric_sum + v.geometric_sum
    has_zero := s.has_zero
    has_negative := s.has_negative || v.has_negative }

/-- `FromIterator` for `OnlineStats`. -/
def OnlineStats.ofList (lg : ℚ → ℚ) (l : List ℚ) : OnlineStats :=
  l.foldl (OnlineStats.add lg) OnlineStats.new

/-- `OnlineStats::mean`: NaN (`none`) when empty, else the running mean. -/
def OnlineStats.meanQ (s : OnlineStats) : Option ℚ :=
  if s.size = 0 then none else some s.mean

/-- `OnlineStats::variance`: `q / size`; on an empty state the source divides
`0.0 / 0.0` producing NaN, modelled as `none`. -/
def OnlineStats.varianceQ (s : OnlineStats) : Option ℚ :=
  if s.size = 0 then none else some (s.q / (s.size : ℚ))

/-- `OnlineStats::harmonic_mean`: NaN (`none`) when empty or a zero or
negative sample was seen, else `size / harmonic_sum`. -/
def OnlineStats.harmonic_mean (s : OnlineStats) : Option ℚ :=
  if s.size = 0 || s.has_zero || s.has_negative then none
  else some ((s.size : ℚ) / s.harmonic_sum)

/-- `OnlineStats::geometric_mean` (see `GeoMean`). -/
def OnlineStats.geometric_mean (s : OnlineStats) : GeoMean :=
  if s.size = 0 then GeoMean.nan
  else if s.has_zero then GeoMean.zero
  else if s.has_negative then GeoMean.nan
  else GeoMean.expOf (s.geometric_sum / (s.size : ℚ))

/-- Concrete stand-in for `f64::ln` used in closed evaluations.  The inputs
of those evaluations only ever take the logarithm of `1`, and `ln 1 = 0`,
so the constant-zero function is exact there. -/
def lnQ : ℚ → ℚ := fun _ => 0

/-! ## Unsorted (src/unsorted.rs), instantiated at `T = ℚ` -/

/-- State of `Unsorted<T>`: the sample buffer and the lazily-maintained
sorted flag. -/
structure Unsorted where
  data : List ℚ
  sorted : Bool
deriving DecidableEq

/-- `Unsorted::new` / `Default::default` (empty is sorted). -/
def Unsorted.new : Unsorted := ⟨[], true⟩

/-- `Unsorted::add`: push and mark unsorted. -/
def Unsorted.add (u : Unsorted) (v : ℚ) : Unsorted := ⟨u.data ++ [v], false⟩

/-- The totally-ordered sort used for `par_sort_unstable` on `Partial<ℚ>`. -/
def sortList (l : List ℚ) : List ℚ := List.insertionSort (fun a b => a ≤ b) l

/-- `Unsorted::sort`: no-op when already sorted. -/
def Unsorted.sort (u : Unsorted) : Unsorted :=
  if u.sorted then u else ⟨sortList u.data, true⟩

/-- `Unsorted::already_sorted`: set the flag without sorting. -/
def Unsorted.already_sorted (u : Unsorted) : Unsorted := { u with sorted := true }

/-- `Commute::merge` for `Unsorted`: concatenate buffers, mark unsorted. -/
def Unsorted.merge (s v : Unsorted) : Unsorted := ⟨s.data ++ v.data, false⟩

/-- `FromIterator` for `Unsorted` built from repeated `add`. -/
def Unsorted.ofList (l : List ℚ) : Unsorted := l.foldl Unsorted.add Unsorted.new

/-- One step of the sequential fold of `Unsorted::cardinality`:
`if Some(item) != last { (count + 1, Some(item)) } else { (count, last) }`. -/
def seqCountStep (acc : ℕ × Option ℚ) (item : ℚ) : ℕ × Option ℚ :=
  if some item ≠ acc.2 then (acc.1 + 1, some item) else acc

/-- The sequential branch of `Unsorted::cardinality`. -/
def seqCount (l : List ℚ) : ℕ := (l.foldl seqCountStep (0, none)).1

/-- The parallel branch of `Unsorted::cardinality`: over all adjacent
windows of width 2, sum `1` per unequal pair, plus `1`. -/
def parCount (l : List ℚ) : ℕ :=
  ((l.zip l.tail).map (fun w => if w.1 ≠ w.2 then 1 else 0)).sum + 1

/-- `DEFAULT_PARALLEL_THRESHOLD` of `Unsorted::cardinality`. -/
def DEFAULT_PARALLEL_THRESHOLD : ℕ := 10000

/-- `Unsorted::cardinality(sorted, parallel_threshold)`, state-passing. -/
def Unsorted.cardinality (u : Unsorted) (sorted : Bool) (parallel_threshold : ℕ) :
    ℕ × Unsorted :=
  let len := u.data.length
  if len = 0 then (0, u)
  else if len = 1 then (1, u)
  else
    let u := if sorted then u.already_sorted else u.sort
    let use_parallel := parallel_threshold ≠ 0 ∧
      (parallel_threshold = 1 ∨ len > max parallel_threshold DEFAULT_PARALLEL_THRESHOLD)
    if use_parallel then (parCount u.data, u) else (seqCount u.data, u)

/-- `median_on_sorted`. -/
def median_on_sorted (data : List ℚ) : Option ℚ :=
  if data.length = 0 then none
  else if data.length = 1 then data.head?
  else if data.length % 2 = 0 then do
    let v1 ← data.get? (data.length / 2 - 1)
    let v2 ← data.get? (data.length / 2)
    pure ((v1 + v2) / 2)
  else
    -- `unsafe { data.get_unchecked(len / 2) }`: a total in-bounds access
    some (data.getD (data.length / 2) 0)

/-- `Unsorted::median`, state-passing. -/
def Unsorted.median (u : Unsorted) : Option ℚ × Unsorted :=
  if u.data.isEmpty then (none, u)
  else
    let u := u.sort
    (median_on_sorted u.data, u)

/-- `quartiles_on_sorted`. -/
def quartiles_on_sorted (data : List ℚ) : Option (ℚ × ℚ × ℚ) :=
  if data.length ≤ 2 then none
  else if data.length = 3 then do
    let a ← data.head?
    let b ← data.get? 1
    let c ← data.getLast?
    pure (a, b, c)
  else
    let len := data.length
    let r := len % 4
    let k := (len - r) / 4
    if r = 0 then do
      let q1_l ← data.get? (k - 1)
      let q1_r ← data.get? k
      let q2_l ← data.get? (2 * k - 1)
      let q2_r ← data.get? (2 * k)
      let q3_l ← data.get? (3 * k - 1)
      let q3_r ← data.get? (3 * k)
      pure ((q1_l + q1_r) / 2, (q2_l + q2_r) / 2, (q3_l + q3_r) / 2)
    else if r = 1 then do
      let q1_l ← data.get? (k - 1)
      let q1_r ← data.get? k
      let q2 ← data.get? (2 * k)
      let q3_l ← data.get? (3 * k)
      let q3_r ← data.get? (3 * k + 1)
      pure ((q1_l + q1_r) / 2, q2, (q3_l + q3_r) / 2)
    else if r = 2 then do
      let q1 ← data.get? k
      let q2_l ← data.get? (2 * k)
      let q2_r ← data.get? (2 * k + 1)
      let q3 ← data.get? (3 * k + 1)
      pure (q1, (q2_l + q2_r) / 2, q3)
    else do
      let q1 ← data.get? k
      let q2 ← data.get? (2 * k + 1)
      let q3 ← data.get? (3 * k + 2)
      pure (q1, q2, q3)

/-- `Unsorted::quartiles`, state-passing. -/
def Unsorted.quartiles (u : Unsorted) : Option (ℚ × ℚ × ℚ) × Unsorted :=
  if u.data.isEmpty then (none, u)
  else
    let u := u.sort
    (quartiles_on_sorted u.data, u)

/-- One iteration of `mode_on_sorted`'s scan.  State is
`(mode, next, mode_count, next_count)`. -/
def modeStep (st : Option ℚ × Option ℚ × ℕ × ℕ) (x : ℚ) :
    Option ℚ × Option ℚ × ℕ × ℕ :=
  let (mode, next, mode_count, next_count) := st
  let (mode, next, mode_count, next_count) :=
    if mode = some x then (mode, next, mode_count + 1, next_count)
    else if next = some x then (mode, next, mode_count, next_count + 1)
    else (mode, some x, mode_count, 0)
  match compare next_count mode_count with
  | Ordering.gt => (next, none, next_count, 0)
  | Ordering.eq => (none, next, 0, next_count)
  | Ordering.lt => (mode, next, mode_count, next_count)

/-- `mode_on_sorted`. -/
def mode_on_sorted (l : List ℚ) : Option ℚ :=
  (l.foldl modeStep (none, none, 0, 0)).1

/-- `Unsorted::mode`, state-passing. -/
def Unsorted.mode (u : Unsorted) : Option ℚ × Unsorted :=
  if u.data.isEmpty then (none, u)
  else
    let u := u.sort
    (mode_on_sorted u.data, u)

/-- The `u32::MAX` sentinel of `antimodes_on_sorted`. -/
def U32MAX : ℕ := 4294967295

/-- The element loop of `antimodes_on_sorted`.  `values`/`counts` are the
`values`/`antimodes` vectors, `cnt` the index of the last (open) run,
`lowest` the running minimum over the counts of the *closed* runs. -/
def antimodesLoop (values : List ℚ) (counts : List ℕ) (cnt : ℕ) (lowest : ℕ) :
    List ℚ → List ℚ × List ℕ × ℕ × ℕ
  | [] => (values, counts, cnt, lowest)
  | x :: rest =>
    if values.getD cnt 0 = x then
      antimodesLoop values (counts.set cnt (counts.getD cnt 0 + 1)) cnt lowest rest
    else
      antimodesLoop (values ++ [x]) (counts ++ [1]) (cnt + 1)
        (if lowest > counts.getD cnt 0 then counts.getD cnt 0 else lowest) rest

/-- `antimodes_on_sorted`.  The final list keeps only the first 10
qualifying values while the returned count is the total number of
qualifying values (the source pushes into `antimodes_result` only while a
counter is below 10 but `.count()`s the whole filtered iterator). -/
def antimodes_on_sorted (l : List ℚ) : List ℚ × ℕ × ℕ :=
  match l with
  | [] => ([], 0, 0)
  | first :: rest =>
    let st := antimodesLoop [first] [1] 0 U32MAX rest
    let values := st.1
    let counts := st.2.1
    let cnt := st.2.2.1
    let lowest0 := st.2.2.2
    let lowest :=
      if cnt > 0 ∧ lowest0 > counts.getD cnt 0 then counts.getD cnt 0 else lowest0
    if lowest = U32MAX then ([], 0, 0)
    else
      let qualifying := ((counts.zip values).filter (fun p => p.1 == lowest)).map Prod.snd
      (qualifying.take 10, qualifying.length, lowest)

/-- `Unsorted::antimodes`, state-passing. -/
def Unsorted.antimodes (u : Unsorted) : (List ℚ × ℕ × ℕ) × Unsorted :=
  if u.data.isEmpty then (([], 0, 0), u)
  else
    let u := u.sort
    (antimodes_on_sorted u.data, u)

/-! ## Specification-side reference definitions -/

/-- Run-length encoding helper: runs of `rest` with an open run of value `v`
seen `k` times in front. -/
def runsAux (v : ℚ) (k : ℕ) : List ℚ → List (ℚ × ℕ)
  | [] => [(v, k)]
  | x :: xs => if x = v then runsAux v (k + 1) xs else (v, k) :: runsAux x 1 xs

/-- Maximal runs of equal adjacent values of a list, with their lengths. -/
def runsOf : List ℚ → List (ℚ × ℕ)
  | [] => []
  | x :: xs => runsAux x 1 xs

/-- Median per the specification's words: sort; empty → none; one element →
that element; even length → average of the two central elements; odd
length → the central element. -/
def medianSpec (l : List ℚ) : Option ℚ :=
  let s := sortList l
  if s.length = 0 then none
  else if s.length = 1 then some (s.getD 0 0)
  else if s.length % 2 = 0 then
    some ((s.getD (s.length / 2 - 1) 0 + s.getD (s.length / 2) 0) / 2)
  else some (s.getD (s.length / 2) 0)

/-- Quartiles per the specification's case table on `len mod 4` (0-based
indices into the sorted buffer). -/
def quartilesSpec (l : List ℚ) : Option (ℚ × ℚ × ℚ) :=
  let s := sortList l
  let len := s.length
  if len ≤ 2 then none
  else if len = 3 then some (s.getD 0 0, s.getD 1 0, s.getD 2 0)
  else
    let r := len % 4
    let k := (len - r) / 4
    if r = 0 then
      some ((s.getD (k - 1) 0 + s.getD k 0) / 2,
            (s.getD (2 * k - 1) 0 + s.getD (2 * k) 0) / 2,
            (s.getD (3 * k - 1) 0 + s.getD (3 * k) 0) / 2)
    else if r = 1 then
      some ((s.getD (k - 1) 0 + s.getD k 0) / 2,
            s.getD (2 * k) 0,
            (s.getD (3 * k) 0 + s.getD (3 * k + 1) 0) / 2)
    else if r = 2 then
      some (s.getD k 0,
            (s.getD (2 * k) 0 + s.getD (2 * k + 1) 0) / 2,
            s.getD (3 * k + 1) 0)
    else
      some (s.getD k 0, s.getD (2 * k + 1) 0, s.getD (3 * k + 2) 0)

/-- Antimodes per the claim's words, amended in one point: let `minFreq` be
the smallest run length of the sorted buffer; return the distinct values
whose run length equals `minFreq`, ascending, truncated to the first 10,
with the true qualifying count and `occurrence = minFreq` — except that a
buffer that is empty *or has a single distinct value* yields `([], 0, 0)`
(the amendment: the claim predicted `([], 0, 0)` for the empty buffer
only). -/
def antimodesSpec (l : List ℚ) : List ℚ × ℕ × ℕ :=
  let R := runsOf (sortList l)
  match (R.map Prod.snd).min? with
  | none => ([], 0, 0)
  | some m =>
    if R.length ≤ 1 then ([], 0, 0)
    else
      let q := (R.filter (fun r => r.2 == m)).map Prod.fst
      (q.take 10, q.length, m)

/-- Arithmetic mean of a list (0 for the empty list), reference value. -/
def meanSpec (l : List ℚ) : ℚ :=
  if l.length = 0 then 0 else l.sum / (l.length : ℚ)

/-- Sum of squared deviations of a list (0 for the empty list), reference
value: `Σ x² − (Σ x)² / n`. -/
def qSpec (l : List ℚ) : ℚ :=
  if l.length = 0 then 0
  else (l.map (fun x => x * x)).sum - l.sum * l.sum / (l.length : ℚ)

/-- Boolean strict comparison of a linearly ordered sample type: the `ltB`
instantiation used when `MinMax` is applied to a totally ordered `T`. -/
def ltD {T : Type} [LinearOrder T] : T → T → Bool := fun a b => decide (a < b)

/-! ## Basic helpers -/

theorem getq_of_lt {α : Type} (l : List α) (n : ℕ) (d : α) (h : n < l.length) :
    l.get? n = some (l.getD n d) := by
  induction l generalizing n with
  | nil => simp at h
  | cons a t ih =>
    cases n with
    | zero => rfl
    | succ m => simpa using ih m (by simpa using h)

theorem getD_append_len {α : Type} (l : List α) (a d : α) :
    (l ++ [a]).getD l.length d = a := by
  induction l with
  | nil => rfl
  | cons x t ih => simp [ih]

theorem set_append_len {α : Type} (l : List α) (a b : α) :
    (l ++ [a]).set l.length b = l ++ [b] := by
  induction l with
  | nil => rfl
  | cons x t ih => simp [ih]

theorem sortList_perm (l : List ℚ) : (sortList l).Perm l :=
  List.perm_insertionSort _ l

theorem sortList_length (l : List ℚ) : (sortList l).length = l.length :=
  (sortList_perm l).length_eq

theorem sortList_sorted (l : List ℚ) : List.Sorted (· ≤ ·) (sortList l) :=
  List.sorted_insertionSort _ l

theorem Unsorted.foldl_add (l : List ℚ) (u : Unsorted) :
    l.foldl Unsorted.add u = ⟨u.data ++ l, u.sorted && l.isEmpty⟩ := by
  induction l generalizing u with
  | nil => simp
  | cons x t ih => simp [Unsorted.add, ih]

theorem Unsorted.ofList_eq (l : List ℚ) : Unsorted.ofList l = ⟨l, l.isEmpty⟩ := by
  simp [Unsorted.ofList, Unsorted.foldl_add, Unsorted.new]

theorem median_on_sorted_eq (s : List ℚ) :
    median_on_sorted s =
      (if s.length = 0 then none
       else if s.length = 1 then some (s.getD 0 0)
       else if s.length % 2 = 0 then
         some ((s.getD (s.length / 2 - 1) 0 + s.getD (s.length / 2) 0) / 2)
       else some (s.getD (s.length / 2) 0)) := by
  unfold median_on_sorted
  by_cases h0 : s.length = 0
  · simp [h0]
  by_cases h1 : s.length = 1
  · simp [h0, h1]
    cases s with
    | nil => simp at h1
    | cons a t => rfl
  by_cases h2 : s.length % 2 = 0
  · have hlt : s.length / 2 < s.length := Nat.div_lt_self (by omega) (by omega)
    have hlt2 : s.length / 2 - 1 < s.length := by omega
    simp only [if_neg h0, if_neg h1, if_pos h2]
    rw [getq_of_lt s _ 0 hlt2, getq_of_lt s _ 0 hlt]
    rfl
  · simp [h0, h1, h2]

theorem Unsorted.median_ofList (l : List ℚ) :
    (Unsorted.median (Unsorted.ofList l)).1 = medianSpec l := by
  rw [Unsorted.ofList_eq]
  by_cases hl : l = []
  · subst hl; decide
  · have hE : l.isEmpty = false := by simp [hl]
    simp only [Unsorted.median, hE, Unsorted.sort, Bool.false_eq_true, if_false,
      median_on_sorted_eq]
    rfl

theorem quartiles_on_sorted_eq (s : List ℚ) :
    quartiles_on_sorted s =
      (if s.length ≤ 2 then none
       else if s.length = 3 then some (s.getD 0 0, s.getD 1 0, s.getD 2 0)
       else
         let r := s.length % 4
         let k := (s.length - r) / 4
         if r = 0 then
           some ((s.getD (k - 1) 0 + s.getD k 0) / 2,
                 (s.getD (2 * k - 1) 0 + s.getD (2 * k) 0) / 2,
                 (s.getD (3 * k - 1) 0 + s.getD (3 * k) 0) / 2)
         else if r = 1 then
           some ((s.getD (k - 1) 0 + s.getD k 0) / 2,
                 s.getD (2 * k) 0,
                 (s.getD (3 * k) 0 + s.getD (3 * k + 1) 0) / 2)
         else if r = 2 then
           some (s.getD k 0,
                 (s.getD (2 * k) 0 + s.getD (2 * k + 1) 0) / 2,
                 s.getD (3 * k + 1) 0)
         else
           some (s.getD k 0, s.getD (2 * k + 1) 0, s.getD (3 * k + 2) 0)) := by
  unfold quartiles_on_sorted
  by_cases hle : s.length ≤ 2
  · simp [hle]
  by_cases h3 : s.length = 3
  · obtain ⟨a, b, c, rfl⟩ := List.length_eq_three.1 h3
    simp [hle, h3]
  have hlen : 4 ≤ s.length := by omega
  have hmod : s.length % 4 < 4 := Nat.mod_lt _ (by omega)
  have hk : 4 * ((s.length - s.length % 4) / 4) + s.length % 4 = s.length := by omega
  simp only [if_neg hle, if_neg h3]
  by_cases hr0 : s.length % 4 = 0
  · have h1 : (s.length - s.length % 4) / 4 - 1 < s.length := by omega
    have h2 : (s.length - s.length % 4) / 4 < s.length := by omega
    have h3a : 2 * ((s.length - s.length % 4) / 4) - 1 < s.length := by omega
    have h4 : 2 * ((s.length - s.length % 4) / 4) < s.length := by omega
    have h5 : 3 * ((s.length - s.length % 4) / 4) - 1 < s.length := by omega
    have h6 : 3 * ((s.length - s.length % 4) / 4) < s.length := by omega
    rw [if_pos hr0, if_pos hr0]
    rw [getq_of_lt s _ 0 h1, getq_of_lt s _ 0 h2, getq_of_lt s _ 0 h3a,
      getq_of_lt s _ 0 h4, getq_of_lt s _ 0 h5, getq_of_lt s _ 0 h6]
    rfl
  by_cases hr1 : s.length % 4 = 1
  · have h1 : (s.length - s.length % 4) / 4 - 1 < s.length := by omega
    have h2 : (s.length - s.length % 4) / 4 < s.length := by omega
    have h4 : 2 * ((s.length - s.length % 4) / 4) < s.length := by omega
    have h5 : 3 * ((s.length - s.length % 4) / 4) < s.length := by omega
    have h6 : 3 * ((s.length - s.length % 4) / 4) + 1 < s.length := by omega
    rw [if_neg hr0, if_neg hr0, if_pos hr1, if_pos hr1]
    rw [getq_of_lt s _ 0 h1, getq_of_lt s _ 0 h2, getq_of_lt s _ 0 h4,
      getq_of_lt s _ 0 h5, getq_of_lt s _ 0 h6]
    rfl
  by_cases hr2 : s.length % 4 = 2
  · have h2 : (s.length - s.length % 4) / 4 < s.length := by omega
    have h4 : 2 * ((s.length - s.length % 4) / 4) < s.length := by omega
    have h5 : 2 * ((s.length - s.length % 4) / 4) + 1 < s.length := by omega
    have h6 : 3 * ((s.length - s.length % 4) / 4) + 1 < s.length := by omega
    rw [if_neg hr0, if_neg hr0, if_neg hr1, if_neg hr1, if_pos hr2, if_pos hr2]
    rw [getq_of_lt s _ 0 h2, getq_of_lt s _ 0 h4, getq_of_lt s _ 0 h5,
      getq_of_lt s _ 0 h6]
    rfl
  · have hr3 : s.length % 4 = 3 := by omega
    have h2 : (s.length - s.length % 4) / 4 < s.length := by omega
    have h4 : 2 * ((s.length - s.length % 4) / 4) + 1 < s.length := by omega
    have h6 : 3 * ((s.length - s.length % 4) / 4) + 2 < s.length := by omega
    rw [if_neg hr0, if_neg hr0, if_neg hr1, if_neg hr1, if_neg hr2, if_neg hr2]
    rw [getq_of_lt s _ 0 h2, getq_of_lt s _ 0 h4, getq_of_lt s _ 0 h6]
    rfl

theorem Unsorted.quartiles_ofList (l : List ℚ) :
    (Unsorted.quartiles (Unsorted.ofList l)).1 = quartilesSpec l := by
  rw [Unsorted.ofList_eq]
  by_cases hl : l = []
  · subst hl; decide
  · have hE : l.isEmpty = false := by simp [hl]
    simp only [Unsorted.quartiles, hE, Unsorted.sort, Bool.false_eq_true, if_false,
      quartiles_on_sorted_eq]
    rfl

/-! ## MinMax over a linear order: aggregation agrees with merge -/

theorem minUpd_eq_mergeMin {T : Type} [LinearOrder T] (m : Option T) (x : T) :
    minUpd ltD m x = mergeMin ltD m (some x) := by
  cases m <;> simp [minUpd, mergeMin, optLt]

theorem maxUpd_eq_mergeMax {T : Type} [LinearOrder T] (m : Option T) (x : T) :
    maxUpd ltD m x = mergeMax ltD m (some x) := by
  cases m <;> simp [maxUpd, mergeMax, optLt]

theorem mergeMin_none_right {T : Type} [LinearOrder T] (a : Option T) :
    mergeMin ltD a none = a := by
  cases a <;> simp [mergeMin, optLt]

theorem mergeMin_none_left {T : Type} [LinearOrder T] (b : Option T) :
    mergeMin ltD none b = b := by
  simp [mergeMin]

theorem mergeMin_some_some {T : Type} [LinearOrder T] (x y : T) :
    mergeMin ltD (some x) (some y) = some (min x y) := by
  simp only [mergeMin, optLt, ltD, Option.isNone_some, Option.isSome_some,
    Bool.false_or, Bool.true_and]
  by_cases h : y < x
  · simp [h, min_eq_right h.le]
  · simp [h, min_eq_left (not_lt.mp h)]

theorem mergeMax_none_right {T : Type} [LinearOrder T] (a : Option T) :
    mergeMax ltD a none = a := by
  cases a <;> simp [mergeMax, optLt]

theorem mergeMax_none_left {T : Type} [LinearOrder T] (b : Option T) :
    mergeMax ltD none b = b := by
  simp [mergeMax]

theorem mergeMax_some_some {T : Type} [LinearOrder T] (x y : T) :
    mergeMax ltD (some x) (some y) = some (max x y) := by
  simp only [mergeMax, optLt, ltD, Option.isNone_some, Option.isSome_some,
    Bool.false_or, Bool.true_and]
  by_cases h : x < y
  · simp [h, max_eq_right h.le]
  · simp [h, max_eq_left (not_lt.mp h)]

theorem mergeMin_assoc {T : Type} [LinearOrder T] (a b c : Option T) :
    mergeMin ltD (mergeMin ltD a b) c = mergeMin ltD a (mergeMin ltD b c) := by
  cases a with
  | none => rw [mergeMin_none_left, mergeMin_none_left]
  | some x =>
    cases b with
    | none => rw [mergeMin_none_right, mergeMin_none_left]
    | some y =>
      cases c with
      | none => rw [mergeMin_none_right, mergeMin_none_right]
      | some z =>
        rw [mergeMin_some_some, mergeMin_some_some, mergeMin_some_some,
          mergeMin_some_some, min_assoc]

theorem mergeMax_assoc {T : Type} [LinearOrder T] (a b c : Option T) :
    mergeMax ltD (mergeMax ltD a b) c = mergeMax ltD a (mergeMax ltD b c) := by
  cases a with
  | none => rw [mergeMax_none_left, mergeMax_none_left]
  | some x =>
    cases b with
    | none => rw [mergeMax_none_right, mergeMax_none_left]
    | some y =>
      cases c with
      | none => rw [mergeMax_none_right, mergeMax_none_right]
      | some z =>
        rw [mergeMax_some_some, mergeMax_some_some, mergeMax_some_some,
          mergeMax_some_some, max_assoc]

theorem foldl_minUpd {T : Type} [LinearOrder T] (B : List T) :
    ∀ m : Option T, B.foldl (minUpd ltD) m = mergeMin ltD m (B.foldl (minUpd ltD) none) := by
  induction B with
  | nil => intro m; simp [mergeMin_none_right]
  | cons b B ih =>
    intro m
    rw [List.foldl_cons, ih (minUpd ltD m b), List.foldl_cons, ih (minUpd ltD none b),
      minUpd_eq_mergeMin, minUpd_eq_mergeMin, mergeMin_assoc, mergeMin_none_left]

theorem foldl_maxUpd {T : Type} [LinearOrder T] (B : List T) :
    ∀ m : Option T, B.foldl (maxUpd ltD) m = mergeMax ltD m (B.foldl (maxUpd ltD) none) := by
  induction B with
  | nil => intro m; simp [mergeMax_none_right]
  | cons b B ih =>
    intro m
    rw [List.foldl_cons, ih (maxUpd ltD m b), List.foldl_cons, ih (maxUpd ltD none b),
      maxUpd_eq_mergeMax, maxUpd_eq_mergeMax, mergeMax_assoc, mergeMax_none_left]

theorem MinMax.foldl_add_decomp {T : Type} [LinearOrder T] (l : List T) :
    ∀ s : MinMax T,
      l.foldl (MinMax.add ltD) s =
        ⟨s.len + l.length, l.foldl (minUpd ltD) s.min, l.foldl (maxUpd ltD) s.max⟩ := by
  induction l with
  | nil => intro s; simp
  | cons x t ih =>
    intro s
    rw [List.foldl_cons, ih (MinMax.add ltD s x), List.foldl_cons, List.foldl_cons]
    simp [MinMax.add]
    omega

theorem MinMax.ofList_append {T : Type} [LinearOrder T] (A B : List T) :
    MinMax.ofList ltD (A ++ B) =
      MinMax.merge ltD (MinMax.ofList ltD A) (MinMax.ofList ltD B) := by
  unfold MinMax.ofList MinMax.merge
  rw [List.foldl_append, MinMax.foldl_add_decomp A (MinMax.new T),
    MinMax.foldl_add_decomp B, MinMax.foldl_add_decomp B (MinMax.new T)]
  simp only [MinMax.new, MinMax.mk.injEq]
  refine ⟨by simp [Nat.add_assoc], ?_, ?_⟩
  · exact foldl_minUpd B _
  · exact foldl_maxUpd B _

/-! ## OnlineStats: Welford characterisation and parallel-merge identity -/

theorem OnlineStats.foldl_size (lg : ℚ → ℚ) (l : List ℚ) :
    ∀ s : OnlineStats, (l.foldl (OnlineStats.add lg) s).size = s.size + l.length := by
  induction l with
  | nil => intro s; simp
  | cons x t ih =>
    intro s
    rw [List.foldl_cons, ih]
    simp [OnlineStats.add]
    omega

theorem OnlineStats.ofList_size (lg : ℚ → ℚ) (l : List ℚ) :
    (OnlineStats.ofList lg l).size = l.length := by
  rw [OnlineStats.ofList, OnlineStats.foldl_size]
  simp [OnlineStats.new]

theorem OnlineStats.ofList_snoc (lg : ℚ → ℚ) (t : List ℚ) (x : ℚ) :
    OnlineStats.ofList lg (t ++ [x]) =
      OnlineStats.add lg (OnlineStats.ofList lg t) x := by
  rw [OnlineStats.ofList, OnlineStats.ofList, List.foldl_append, List.foldl_cons,
    List.foldl_nil]

theorem OnlineStats.ofList_mean_q (lg : ℚ → ℚ) (l : List ℚ) :
    (OnlineStats.ofList lg l).mean = meanSpec l ∧
      (OnlineStats.ofList lg l).q = qSpec l := by
  induction l using List.reverseRecOn with
  | nil => exact ⟨rfl, rfl⟩
  | append_singleton t x ih =>
    obtain ⟨hm, hq⟩ := ih
    have hsz : (OnlineStats.ofList lg t).size = t.length := OnlineStats.ofList_size lg t
    rw [OnlineStats.ofList_snoc]
    have hmean : (OnlineStats.add lg (OnlineStats.ofList lg t) x).mean =
        meanSpec t + (x - meanSpec t) / ((t.length : ℚ) + 1) := by
      show (OnlineStats.ofList lg t).mean +
          (x - (OnlineStats.ofList lg t).mean) / (((OnlineStats.ofList lg t).size + 1 : ℕ) : ℚ) =
          _
      rw [hm, hsz]
      push_cast
      ring
    constructor
    · rw [hmean]
      by_cases ht : t.length = 0
      · have : t = [] := List.length_eq_zero.mp ht
        subst this
        simp [meanSpec]
      · have hn : (t.length : ℚ) ≠ 0 := Nat.cast_ne_zero.mpr ht
        have hn1 : (t.length : ℚ) + 1 ≠ 0 := by positivity
        simp only [meanSpec, ht, if_neg ht, List.length_append, List.length_cons,
          List.length_nil, List.sum_append, List.sum_cons, List.sum_nil]
        have hne : ¬(t.length + 1 = 0) := by omega
        rw [if_neg hne]
        push_cast
        field_simp
        ring
    · have hq2 : (OnlineStats.add lg (OnlineStats.ofList lg t) x).q =
          qSpec t + (x - meanSpec t) *
            (x - (meanSpec t + (x - meanSpec t) / ((t.length : ℚ) + 1))) := by
        show (OnlineStats.ofList lg t).q +
            (x - (OnlineStats.ofList lg t).mean) *
              (x - ((OnlineStats.ofList lg t).mean +
                (x - (OnlineStats.ofList lg t).mean) /
                  (((OnlineStats.ofList lg t).size + 1 : ℕ) : ℚ))) = _
        rw [hm, hq, hsz]
        push_cast
        ring
      rw [hq2]
      by_cases ht : t.length = 0
      · have : t = [] := List.length_eq_zero.mp ht
        subst this
        simp [meanSpec, qSpec]
      · have hn : (t.length : ℚ) ≠ 0 := Nat.cast_ne_zero.mpr ht
        have hn1 : (t.length : ℚ) + 1 ≠ 0 := by positivity
        have hne : ¬(t.length + 1 = 0) := by omega
        simp only [meanSpec, qSpec, ht, if_neg ht, List.length_append, List.length_cons,
          List.length_nil, List.sum_append, List.sum_cons, List.sum_nil, List.map_append,
          List.map_cons, List.map_nil]
        rw [if_neg hne]
        push_cast
        field_simp
        ring

theorem meanSpec_append (A B : List ℚ) :
    meanSpec (A ++ B) =
      ((A.length : ℚ) * meanSpec A + (B.length : ℚ) * meanSpec B) /
        ((A.length : ℚ) + (B.length : ℚ)) := by
  by_cases hA : A.length = 0
  · have hAe : A = [] := List.length_eq_zero.mp hA
    subst hAe
    by_cases hB : B.length = 0
    · have hBe : B = [] := List.length_eq_zero.mp hB
      subst hBe
      simp [meanSpec]
    · have hn : (B.length : ℚ) ≠ 0 := Nat.cast_ne_zero.mpr hB
      simp only [List.nil_append, meanSpec, List.length_nil, Nat.cast_zero,
        if_neg hB, if_pos rfl]
      field_simp
  · by_cases hB : B.length = 0
    · have hBe : B = [] := List.length_eq_zero.mp hB
      subst hBe
      have hn : (A.length : ℚ) ≠ 0 := Nat.cast_ne_zero.mpr hA
      simp only [List.append_nil, meanSpec, List.length_nil, Nat.cast_zero,
        if_neg hA, if_pos rfl]
      field_simp
    · have hnA : (A.length : ℚ) ≠ 0 := Nat.cast_ne_zero.mpr hA
      have hnB : (B.length : ℚ) ≠ 0 := Nat.cast_ne_zero.mpr hB
      have hAB : ¬(A.length + B.length = 0) := by omega
      have hnAB : (A.length : ℚ) + (B.length : ℚ) ≠ 0 := by
        have h1 : (0 : ℚ) < (A.length : ℚ) :=
          Nat.cast_pos.mpr (Nat.pos_of_ne_zero hA)
        have h2 : (0 : ℚ) ≤ (B.length : ℚ) := Nat.cast_nonneg _
        positivity
      simp only [meanSpec, List.length_append, List.sum_append, if_neg hA, if_neg hB,
        if_neg hAB]
      push_cast
      field_simp

theorem qSpec_append (A B : List ℚ) :
    qSpec (A ++ B) =
      qSpec A + (qSpec B +
        ((meanSpec A - meanSpec B) * (meanSpec A - meanSpec B) *
          ((A.length : ℚ) * (B.length : ℚ) / ((A.length : ℚ) + (B.length : ℚ))) + 0)) := by
  by_cases hA : A.length = 0
  · have hAe : A = [] := List.length_eq_zero.mp hA
    subst hAe
    simp [qSpec, meanSpec]
  · by_cases hB : B.length = 0
    · have hBe : B = [] := List.length_eq_zero.mp hB
      subst hBe
      simp [qSpec, meanSpec]
    · have hnA : (A.length : ℚ) ≠ 0 := Nat.cast_ne_zero.mpr hA
      have hnB : (B.length : ℚ) ≠ 0 := Nat.cast_ne_zero.mpr hB
      have hAB : ¬(A.length + B.length = 0) := by omega
      have hnAB : (A.length : ℚ) + (B.length : ℚ) ≠ 0 := by
        have h1 : (0 : ℚ) < (A.length : ℚ) :=
          Nat.cast_pos.mpr (Nat.pos_of_ne_zero hA)
        have h2 : (0 : ℚ) ≤ (B.length : ℚ) := Nat.cast_nonneg _
        positivity
      simp only [qSpec, meanSpec, List.length_append, List.sum_append, List.map_append,
        if_neg hA, if_neg hB, if_neg hAB]
      push_cast
      field_simp
      ring

theorem OnlineStats.merge_mean (lg : ℚ → ℚ) (A B : List ℚ) :
    ((OnlineStats.ofList lg A).merge (OnlineStats.ofList lg B)).mean =
      meanSpec (A ++ B) := by
  show ((((OnlineStats.ofList lg A).size : ℚ)) * (OnlineStats.ofList lg A).mean +
      (((OnlineStats.ofList lg B).size : ℚ)) * (OnlineStats.ofList lg B).mean) /
      ((((OnlineStats.ofList lg A).size : ℚ)) + (((OnlineStats.ofList lg B).size : ℚ))) = _
  rw [OnlineStats.ofList_size, OnlineStats.ofList_size,
    (OnlineStats.ofList_mean_q lg A).1, (OnlineStats.ofList_mean_q lg B).1,
    meanSpec_append]

theorem OnlineStats.merge_q (lg : ℚ → ℚ) (A B : List ℚ) :
    ((OnlineStats.ofList lg A).merge (OnlineStats.ofList lg B)).q =
      qSpec (A ++ B) := by
  show (OnlineStats.ofList lg A).q + ((OnlineStats.ofList lg B).q +
      (((OnlineStats.ofList lg A).mean - (OnlineStats.ofList lg B).mean) *
        ((OnlineStats.ofList lg A).mean - (OnlineStats.ofList lg B).mean) *
        ((((OnlineStats.ofList lg A).size : ℚ)) * (((OnlineStats.ofList lg B).size : ℚ)) /
          ((((OnlineStats.ofList lg A).size : ℚ)) + (((OnlineStats.ofList lg B).size : ℚ)))) + 0)) = _
  rw [OnlineStats.ofList_size, OnlineStats.ofList_size,
    (OnlineStats.ofList_mean_q lg A).1, (OnlineStats.ofList_mean_q lg B).1,
    (OnlineStats.ofList_mean_q lg A).2, (OnlineStats.ofList_mean_q lg B).2,
    qSpec_append]

theorem Unsorted.merge_ofList (A B : List ℚ) :
    (Unsorted.ofList A).merge (Unsorted.ofList B) = ⟨A ++ B, false⟩ := by
  rw [Unsorted.ofList_eq, Unsorted.ofList_eq]
  rfl

theorem Unsorted.ofList_append_of_ne_nil (A B : List ℚ) (h : ¬A ++ B = []) :
    Unsorted.ofList (A ++ B) = (Unsorted.ofList A).merge (Unsorted.ofList B) := by
  rw [Unsorted.ofList_eq, Unsorted.merge_ofList]
  simp [h]

/-- C1: for all finite sample sequences `A`, `B`, building one aggregate from
`A ++ B` agrees with merging the aggregates of `A` and of `B`: exactly equal
`min()`, `max()`, `len()` for `MinMax`; exactly equal `cardinality()` (for
every `parallel_threshold`), `median()` and `mode()` for `Unsorted`; and
`mean()`/`variance()` for `OnlineStats` equal exactly in the idealised
(exact-rational) arithmetic of the model — hence in particular within any
floating-point tolerance such as 1e-9 relative. -/
theorem claim1_concat_eq_merge :
    (∀ (T : Type) [LinearOrder T] (A B : List T),
        (MinMax.ofList ltD (A ++ B)).min =
          (MinMax.merge ltD (MinMax.ofList ltD A) (MinMax.ofList ltD B)).min ∧
        (MinMax.ofList ltD (A ++ B)).max =
          (MinMax.merge ltD (MinMax.ofList ltD A) (MinMax.ofList ltD B)).max ∧
        (MinMax.ofList ltD (A ++ B)).len =
          (MinMax.merge ltD (MinMax.ofList ltD A) (MinMax.ofList ltD B)).len) ∧
    (∀ (A B : List ℚ) (t : ℕ),
        (Unsorted.cardinality (Unsorted.ofList (A ++ B)) false t).1 =
          (Unsorted.cardinality ((Unsorted.ofList A).merge (Unsorted.ofList B)) false t).1 ∧
        (Unsorted.median (Unsorted.ofList (A ++ B))).1 =
          (Unsorted.median ((Unsorted.ofList A).merge (Unsorted.ofList B))).1 ∧
        (Unsorted.mode (Unsorted.ofList (A ++ B))).1 =
          (Unsorted.mode ((Unsorted.ofList A).merge (Unsorted.ofList B))).1) ∧
    (∀ (lg : ℚ → ℚ) (A B : List ℚ),
        (OnlineStats.ofList lg (A ++ B)).size =
          ((OnlineStats.ofList lg A).merge (OnlineStats.ofList lg B)).size ∧
        (OnlineStats.ofList lg (A ++ B)).meanQ =
          ((OnlineStats.ofList lg A).merge (OnlineStats.ofList lg B)).meanQ ∧
        (OnlineStats.ofList lg (A ++ B)).varianceQ =
          ((OnlineStats.ofList lg A).merge (OnlineStats.ofList lg B)).varianceQ) := by
  refine ⟨?_, ?_, ?_⟩
  · intro T _ A B
    rw [MinMax.ofList_append]
    exact ⟨rfl, rfl, rfl⟩
  · intro A B t
    by_cases h : A ++ B = []
    · obtain ⟨hA, hB⟩ := List.append_eq_nil.mp h
      subst hA; subst hB
      refine ⟨?_, ?_, ?_⟩ <;>
        simp [Unsorted.ofList_eq, Unsorted.merge, Unsorted.cardinality,
          Unsorted.median, Unsorted.mode]
    · rw [Unsorted.ofList_append_of_ne_nil A B h]
      exact ⟨rfl, rfl, rfl⟩
  · intro lg A B
    have hsize : ((OnlineStats.ofList lg A).merge (OnlineStats.ofList lg B)).size =
        (A ++ B).length := by
      show (OnlineStats.ofList lg A).size + (OnlineStats.ofList lg B).size = _
      rw [OnlineStats.ofList_size, OnlineStats.ofList_size, List.length_append]
    refine ⟨?_, ?_, ?_⟩
    · rw [OnlineStats.ofList_size, hsize]
    · simp only [OnlineStats.meanQ]
      rw [OnlineStats.ofList_size, hsize, (OnlineStats.ofList_mean_q lg (A ++ B)).1,
        OnlineStats.merge_mean]
    · simp only [OnlineStats.varianceQ]
      rw [OnlineStats.ofList_size, hsize, (OnlineStats.ofList_mean_q lg (A ++ B)).2,
        OnlineStats.merge_q]

/-- Witness for C1 at concrete inputs. -/
theorem claim1_witness :
    (MinMax.ofList ltD (([3, 1] : List ℤ) ++ [2])).min =
      (MinMax.merge ltD (MinMax.ofList ltD [3, 1]) (MinMax.ofList ltD [2])).min ∧
    (Unsorted.median (Unsorted.ofList (([3, 5] : List ℚ) ++ [7, 9]))).1 =
      (Unsorted.median ((Unsorted.ofList [3, 5]).merge (Unsorted.ofList [7, 9]))).1 ∧
    (OnlineStats.ofList lnQ (([1, 2, 3] : List ℚ) ++ [2, 4, 6])).varianceQ =
      ((OnlineStats.ofList lnQ [1, 2, 3]).merge (OnlineStats.ofList lnQ [2, 4, 6])).varianceQ :=
  ⟨(claim1_concat_eq_merge.1 ℤ [3, 1] [2]).1,
   (claim1_concat_eq_merge.2.1 [3, 5] [7, 9] 1).2.1,
   (claim1_concat_eq_merge.2.2 lnQ [1, 2, 3] [2, 4, 6]).2.2⟩

/-- C2 (evidence of the code bug): `OnlineStats::merge` does *not* OR the
incoming `has_zero` flag.  With `a` built from `[1]` and `b` from `[0]`
(so `b.has_zero = true`), after `a.merge(b)` the merged flag is `false`
(claim says `a.has_zero || b.has_zero = true`), `harmonic_mean()` of the
merged state is `2`, not NaN, and `geometric_mean()` is `exp 0 = 1`, not
`0`. -/
theorem claim2_has_zero_dropped :
    ((OnlineStats.ofList lnQ [1]).merge (OnlineStats.ofList lnQ [0])).has_zero = false ∧
    ((OnlineStats.ofList lnQ [1]).has_zero || (OnlineStats.ofList lnQ [0]).has_zero) = true ∧
    ((OnlineStats.ofList lnQ [1]).merge (OnlineStats.ofList lnQ [0])).harmonic_mean = some 2 ∧
    ((OnlineStats.ofList lnQ [1]).merge (OnlineStats.ofList lnQ [0])).geometric_mean =
      GeoMean.expOf 0 := by
  norm_num [OnlineStats.ofList, OnlineStats.add, OnlineStats.merge, OnlineStats.new,
    OnlineStats.harmonic_mean, OnlineStats.geometric_mean, lnQ]

/-- C3 (evidence of the code bug): on the three-way tie `[1,1,2,2,3,3]`
(three distinct values, each of frequency 2, as the run-length encoding of
the sorted buffer shows) `mode()` returns `Some 3` instead of the `None`
the claim — and the function's own documentation and tie tests — require. -/
theorem claim3_mode_three_way_tie :
    (Unsorted.mode (Unsorted.ofList [1, 1, 2, 2, 3, 3])).1 = some 3 ∧
    runsOf (sortList [1, 1, 2, 2, 3, 3]) = [(1, 2), (2, 2), (3, 2)] := by
  decide

/-- C4 counterexample: the dataset `[3,3]` is non-empty and has a single
distinct value with frequency 2, yet `antimodes()` returns `([], 0, 0)` —
refuting both "a dataset with a single distinct value has that value as its
antimode" and "only the empty dataset yields `([], 0, 0)`". -/
theorem claim4_counterexample :
    (Unsorted.antimodes (Unsorted.ofList [3, 3])).1 = ([], 0, 0) ∧
    (Unsorted.ofList [3, 3]).data = [3, 3] := by
  decide

/-- C5 (evidence of the code bug): the empty aggregate is not a left
identity of `OnlineStats::merge`.  Merging `x` (built from `[0]`, whose
`geometric_mean()` is exactly `0`) into a newly constructed empty aggregate
loses `x.has_zero`, and the merged aggregate's `geometric_mean()` is
`exp 0 = 1` — observationally different from `x`.  (For `MinMax` and
`Unsorted` the identity laws do hold; the claim fails only through this
`OnlineStats` flag loss.) -/
theorem claim5_empty_not_identity :
    (OnlineStats.new.merge (OnlineStats.ofList lnQ [0])).has_zero = false ∧
    (OnlineStats.ofList lnQ [0]).geometric_mean = GeoMean.zero ∧
    (OnlineStats.new.merge (OnlineStats.ofList lnQ [0])).geometric_mean =
      GeoMean.expOf 0 ∧
    GeoMean.expOf 0 ≠ GeoMean.zero := by
  norm_num [OnlineStats.ofList, OnlineStats.add, OnlineStats.merge, OnlineStats.new,
    OnlineStats.geometric_mean, lnQ]
  decide

/-- C6: `quartiles()` is `none` for lengths 0–2, the three sorted values at
length 3, and for `len ≥ 4` follows the exact `len mod 4` case table of the
claim (`quartilesSpec`); in particular
`quartiles [3,5,7,9] = (4, 6, 8)` and `quartiles [1,2,7,11] = (1.5, 4.5, 9)`. -/
theorem claim6_quartiles_cases :
    (∀ l : List ℚ, (Unsorted.quartiles (Unsorted.ofList l)).1 = quartilesSpec l) ∧
    (Unsorted.quartiles (Unsorted.ofList [3, 5, 7, 9])).1 = some (4, 6, 8) ∧
    (Unsorted.quartiles (Unsorted.ofList [1, 2, 7, 11])).1 = some (3/2, 9/2, 9) :=
  ⟨Unsorted.quartiles_ofList,
   by rw [Unsorted.quartiles_ofList]; norm_num [quartilesSpec, sortList],
   by rw [Unsorted.quartiles_ofList]; norm_num [quartilesSpec, sortList]⟩

/-- Witness for C6 evaluating the quantified part at a concrete input. -/
theorem claim6_witness :
    (Unsorted.quartiles (Unsorted.ofList [3, 5, 7, 9, 12])).1 =
      quartilesSpec [3, 5, 7, 9, 12] :=
  claim6_quartiles_cases.1 [3, 5, 7, 9, 12]

/-- C7: `median()` is `none` on the empty dataset, the single element at
length 1, the average of the two central sorted elements at even length and
the central sorted element at odd length (`medianSpec`); in particular
`median [3,5,7,9] = 6` and `median [3,5,7] = 5`. -/
theorem claim7_median_cases :
    (∀ l : List ℚ, (Unsorted.median (Unsorted.ofList l)).1 = medianSpec l) ∧
    (Unsorted.median (Unsorted.ofList [3, 5, 7, 9])).1 = some 6 ∧
    (Unsorted.median (Unsorted.ofList [3, 5, 7])).1 = some 5 :=
  ⟨Unsorted.median_ofList,
   by rw [Unsorted.median_ofList]; norm_num [medianSpec, sortList],
   by decide⟩

/-- Witness for C7 evaluating the quantified part at a concrete input. -/
theorem claim7_witness :
    (Unsorted.median (Unsorted.ofList [9, 2, 4])).1 = medianSpec [9, 2, 4] :=
  claim7_median_cases.1 [9, 2, 4]

/-! ## Run-length machinery and cardinality (C8) -/

theorem runsAux_ne_nil (rest : List ℚ) (v : ℚ) (k : ℕ) : runsAux v k rest ≠ [] := by
  induction rest generalizing v k with
  | nil => simp [runsAux]
  | cons x xs ih =>
    rw [runsAux]
    by_cases h : x = v
    · simpa [h] using ih v (k + 1)
    · simp [h]

theorem runsAux_length_k (rest : List ℚ) (v : ℚ) (k k' : ℕ) :
    (runsAux v k rest).length = (runsAux v k' rest).length := by
  induction rest generalizing v k k' with
  | nil => rfl
  | cons x xs ih =>
    rw [runsAux, runsAux]
    by_cases h : x = v
    · simpa [h] using ih v (k + 1) (k' + 1)
    · simp [h]

theorem seqCount_loop (rest : List ℚ) :
    ∀ (c : ℕ) (v : ℚ),
      (rest.foldl seqCountStep (c, some v)).1 + 1 = c + (runsAux v 1 rest).length := by
  induction rest with
  | nil => intro c v; simp [runsAux]
  | cons x xs ih =>
    intro c v
    rw [List.foldl_cons]
    by_cases h : x = v
    · have hstep : seqCountStep (c, some v) x = (c, some v) := by
        simp [seqCountStep, h]
      rw [hstep, ih c v, runsAux, if_pos h, runsAux_length_k xs v 2 1]
    · have hstep : seqCountStep (c, some v) x = (c + 1, some x) := by
        simp [seqCountStep, h]
      rw [hstep, ih (c + 1) x, runsAux, if_neg h]
      simp
      omega

theorem seqCount_eq_runs (l : List ℚ) : seqCount l = (runsOf l).length := by
  cases l with
  | nil => rfl
  | cons v xs =>
    have hstep : seqCountStep (0, none) v = (1, some v) := by simp [seqCountStep]
    have h := seqCount_loop xs 1 v
    rw [seqCount, List.foldl_cons, hstep, runsOf]
    omega

theorem parCount_loop (xs : List ℚ) :
    ∀ v : ℚ,
      (((v :: xs).zip xs).map (fun w => if w.1 ≠ w.2 then 1 else 0)).sum + 1 =
        (runsAux v 1 xs).length := by
  induction xs with
  | nil => intro v; simp [runsAux]
  | cons x xs ih =>
    intro v
    rw [List.zip_cons_cons, List.map_cons, List.sum_cons]
    by_cases h : x = v
    · subst h
      rw [runsAux, if_pos rfl, runsAux_length_k xs x 2 1, ← ih x]
      simp
    · have hvx : ¬v = x := fun hv => h hv.symm
      have hw : (if v ≠ x then (1 : ℕ) else 0) = 1 := by simp [hvx]
      rw [hw, runsAux, if_neg h, List.length_cons, ← ih x]
      omega

theorem parCount_eq_runs (l : List ℚ) (h : l ≠ []) : parCount l = (runsOf l).length := by
  cases l with
  | nil => exact absurd rfl h
  | cons v xs =>
    rw [parCount, runsOf, ← parCount_loop xs v]
    rfl

theorem runs_length_toFinset :
    ∀ l : List ℚ, l.Sorted (· ≤ ·) → (runsOf l).length = l.toFinset.card := by
  intro l
  induction l with
  | nil => intro _; rfl
  | cons x xs ih =>
    intro hsort
    obtain ⟨hx_all, htail⟩ := List.sorted_cons.mp hsort
    cases xs with
    | nil => simp [runsOf, runsAux]
    | cons y ys =>
      have hxy : x ≤ y := hx_all y (by simp)
      by_cases heq : y = x
      · have h1 : (runsOf (x :: y :: ys)).length = (runsOf (y :: ys)).length := by
          rw [runsOf, runsAux, if_pos heq, runsOf]
          subst heq
          exact runsAux_length_k ys y 2 1
        have hxmem : x ∈ (y :: ys).toFinset := by
          subst heq
          simp
        have h2 : (x :: y :: ys).toFinset = (y :: ys).toFinset := by
          rw [List.toFinset_cons]
          exact Finset.insert_eq_self.mpr hxmem
        rw [h1, ih htail, h2]
      · have h1 : runsOf (x :: y :: ys) = (x, 1) :: runsOf (y :: ys) := by
          rw [runsOf, runsAux, if_neg heq, runsOf]
        have hxnm : x ∉ (y :: ys).toFinset := by
          rw [List.mem_toFinset]
          intro hmem
          rcases List.mem_cons.mp hmem with h | h
          · exact heq h.symm
          · have hy_all := (List.sorted_cons.mp htail).1
            have hyx : y ≤ x := hy_all x h
            exact heq (le_antisymm hxy hyx).symm
        have h2 : (x :: y :: ys).toFinset = insert x (y :: ys).toFinset :=
          List.toFinset_cons
        rw [h1, List.length_cons, ih htail, h2,
          Finset.card_insert_of_not_mem hxnm]

theorem Unsorted.cardinality_false (l : List ℚ) (t : ℕ) (h2 : 2 ≤ l.length) :
    (Unsorted.cardinality ⟨l, false⟩ false t).1 = (runsOf (sortList l)).length := by
  unfold Unsorted.cardinality
  have h0 : ¬l.length = 0 := by omega
  have h1 : ¬l.length = 1 := by omega
  simp only [if_neg h0, if_neg h1, Bool.false_eq_true, if_false]
  have hs : (Unsorted.sort ⟨l, false⟩).data = sortList l := by
    simp [Unsorted.sort]
  have hne : sortList l ≠ [] := by
    intro h
    have := sortList_length l
    rw [h] at this
    simp at this
    omega
  split
  · rw [hs, parCount_eq_runs _ hne]
  · rw [hs, seqCount_eq_runs]

/-- C8: with `assume_sorted = false`, `cardinality` returns the number of
distinct values of the dataset for *every* value of `parallel_threshold`
(the sequential predecessor fold and the parallel adjacent-window sum both
compute the number of runs of the sorted buffer, which is the number of
distinct values); in particular a dataset of pairwise-distinct values of
length N has cardinality N for every threshold. -/
theorem claim8_cardinality :
    (∀ (l : List ℚ) (t : ℕ),
        (Unsorted.cardinality (Unsorted.ofList l) false t).1 = l.toFinset.card) ∧
    (∀ (l : List ℚ) (t : ℕ), l.Nodup →
        (Unsorted.cardinality (Unsorted.ofList l) false t).1 = l.length) := by
  have main : ∀ (l : List ℚ) (t : ℕ),
      (Unsorted.cardinality (Unsorted.ofList l) false t).1 = l.toFinset.card := by
    intro l t
    rw [Unsorted.ofList_eq]
    by_cases h0 : l.length = 0
    · have : l = [] := List.length_eq_zero.mp h0
      subst this
      simp [Unsorted.cardinality]
    by_cases h1 : l.length = 1
    · obtain ⟨a, rfl⟩ := List.length_eq_one.mp h1
      simp [Unsorted.cardinality]
    · have hne : l ≠ [] := by
        intro h
        subst h
        exact h0 rfl
      have hE : l.isEmpty = false := by simp [hne]
      rw [hE, Unsorted.cardinality_false l t (by omega),
        runs_length_toFinset _ (sortList_sorted l),
        List.toFinset_eq_of_perm _ _ (sortList_perm l)]
  refine ⟨main, fun l t hnd => ?_⟩
  rw [main l t, List.toFinset_card_of_nodup hnd]

/-- Witness for C8: a pairwise-distinct dataset of length 3 has cardinality 3
under sequential (`t = 0`), default (`t = 1`), forced-parallel (`t = 2`) and
custom thresholds. -/
theorem claim8_witness :
    ([2, 9, 4] : List ℚ).Nodup ∧
    (Unsorted.cardinality (Unsorted.ofList [2, 9, 4]) false 0).1 = 3 ∧
    (Unsorted.cardinality (Unsorted.ofList [2, 9, 4]) false 1).1 = 3 ∧
    (Unsorted.cardinality (Unsorted.ofList [2, 9, 4]) false 2).1 = 3 ∧
    (Unsorted.cardinality (Unsorted.ofList [2, 9, 4]) false 50000).1 = 3 :=
  ⟨by decide,
   claim8_cardinality.2 [2, 9, 4] 0 (by decide),
   claim8_cardinality.2 [2, 9, 4] 1 (by decide),
   claim8_cardinality.2 [2, 9, 4] 2 (by decide),
   claim8_cardinality.2 [2, 9, 4] 50000 (by decide)⟩

/-! ## C10: the assume-sorted fast path corrupts later order statistics -/

/-- C10: `cardinality(true, t)` on a buffer of length ≥ 2 sets the sorted
flag without touching the data; consequently an aggregate holding the
unsorted buffer `[5,1,3]` answers `median()` with `1` (computed from the
unsorted element order, the sort being skipped) after such a call, while
the same query without the prior call answers `3`. -/
theorem claim10_assume_sorted_flag :
    (∀ (u : Unsorted) (t : ℕ), 2 ≤ u.data.length →
        (Unsorted.cardinality u true t).2.sorted = true ∧
        (Unsorted.cardinality u true t).2.data = u.data) ∧
    ((Unsorted.median ((Unsorted.cardinality (Unsorted.ofList [5, 1, 3]) true 0).2)).1 =
        some 1 ∧
      (Unsorted.median (Unsorted.ofList [5, 1, 3])).1 = some 3 ∧
      (1 : ℚ) ≠ 3) := by
  constructor
  · intro u t h
    unfold Unsorted.cardinality
    have h0 : ¬u.data.length = 0 := by omega
    have h1 : ¬u.data.length = 1 := by omega
    simp only [if_neg h0, if_neg h1, if_true]
    split <;> exact ⟨rfl, rfl⟩
  · refine ⟨by decide, by decide, by decide⟩

/-- Witness for C10's quantified part at a concrete state. -/
theorem claim10_witness :
    2 ≤ (Unsorted.ofList ([5, 1, 3] : List ℚ)).data.length ∧
    ((Unsorted.cardinality (Unsorted.ofList [5, 1, 3]) true 7).2.sorted = true ∧
      (Unsorted.cardinality (Unsorted.ofList [5, 1, 3]) true 7).2.data =
        (Unsorted.ofList [5, 1, 3]).data) :=
  ⟨by decide, claim10_assume_sorted_flag.1 (Unsorted.ofList [5, 1, 3]) 7 (by decide)⟩

/-! ## C9: MinMax invariant -/

/-- C9 counterexample: under `f64` comparison semantics a single NaN sample
yields `min() = max() = NaN`, and `NaN <= NaN` is false — the sample type's
`<=` is not reflexive at NaN, so `min <= max` fails for floating-point
samples, refuting the claim's parenthetical extension to them. -/
theorem claim9_counterexample :
    (MinMax.add fpLt (MinMax.new FP) FP.nan).min = some FP.nan ∧
    (MinMax.add fpLt (MinMax.new FP) FP.nan).max = some FP.nan ∧
    fpLe FP.nan FP.nan = false := by
  decide

/-- C9 amended: over any sample type whose ordering is a genuine partial
order (strict `<` decidable), every `MinMax` state reachable from `new()`
by `add` and `merge` satisfies `min.isSome ↔ max.isSome ↔ len > 0` and
`min ≤ max` whenever both are present.  (The `isSome` part needs no order
assumptions at all; only `min ≤ max` requires the partial order, which
IEEE floats with NaN do not form.) -/
theorem claim9_minmax_invariant {T : Type} [PartialOrder T]
    [DecidableRel (fun a b : T => a < b)] (s : MinMax T)
    (h : MinMax.Reachable (fun a b => decide (a < b)) s) :
    (s.min.isSome ↔ 0 < s.len) ∧ (s.max.isSome ↔ 0 < s.len) ∧
    ∀ a b : T, s.min = some a → s.max = some b → a ≤ b := by
  induction h with
  | new => simp [MinMax.new]
  | @add s x hs ih =>
    obtain ⟨h1, h2, h3⟩ := ih
    cases hmin : s.min with
    | none =>
      have hmax : s.max = none := by
        cases hmax : s.max with
        | none => rfl
        | some M =>
          rw [hmax] at h2
          rw [hmin] at h1
          simp at h1 h2
          omega
      refine ⟨by simp [MinMax.add, minUpd, hmin], by simp [MinMax.add, maxUpd, hmax], ?_⟩
      intro a b ha hb
      simp [MinMax.add, minUpd, hmin] at ha
      simp [MinMax.add, maxUpd, hmax] at hb
      subst ha; subst hb
      exact le_refl x
    | some m =>
      have hlen : 0 < s.len := by
        rw [hmin] at h1
        simpa using h1.mp (by simp)
      obtain ⟨M, hmax⟩ : ∃ M, s.max = some M := by
        cases hmax : s.max with
        | none =>
          rw [hmax] at h2
          simp at h2
          omega
        | some M => exact ⟨M, rfl⟩
      have hmM : m ≤ M := h3 m M hmin hmax
      refine ⟨?_, ?_, ?_⟩
      · simp only [MinMax.add, minUpd, hmin]
        split <;> simp
      · simp only [MinMax.add, maxUpd, hmax]
        split <;> simp
      · intro a b ha hb
        simp only [MinMax.add, minUpd, maxUpd, hmin, hmax] at ha hb
        by_cases hxm : x < m
        · rw [if_pos (by simpa using hxm)] at ha
          by_cases hMx : M < x
          · exact absurd (lt_trans (lt_of_le_of_lt hmM hMx) hxm) (lt_irrefl m)
          · rw [if_neg (by simpa using hMx)] at hb
            cases ha; cases hb
            exact le_trans hxm.le hmM
        · rw [if_neg (by simpa using hxm)] at ha
          by_cases hMx : M < x
          · rw [if_pos (by simpa using hMx)] at hb
            cases ha; cases hb
            exact le_trans hmM hMx.le
          · rw [if_neg (by simpa using hMx)] at hb
            cases ha; cases hb
            exact hmM
  | @merge s v hs hv ihs ihv =>
    obtain ⟨hs1, hs2, hs3⟩ := ihs
    obtain ⟨hv1, hv2, hv3⟩ := ihv
    cases hsm : s.min with
    | none =>
      have hsM : s.max = none := by
        cases hmax : s.max with
        | none => rfl
        | some M =>
          rw [hmax] at hs2; rw [hsm] at hs1
          simp at hs1 hs2
          omega
      have hlen : s.len = 0 := by
        rw [hsm] at hs1
        simp at hs1
        omega
      have e1 : MinMax.merge (fun a b : T => decide (a < b)) s v =
          ⟨s.len + v.len, v.min, v.max⟩ := by
        simp [MinMax.merge, mergeMin, mergeMax, hsm, hsM]
      rw [e1]
      refine ⟨?_, ?_, ?_⟩
      · rw [hlen]; simpa using hv1
      · rw [hlen]; simpa using hv2
      · exact hv3
    | some m1 =>
      have hslen : 0 < s.len := by
        rw [hsm] at hs1
        simpa using hs1.mp (by simp)
      obtain ⟨M1, hsM⟩ : ∃ M, s.max = some M := by
        cases hmax : s.max with
        | none => rw [hmax] at hs2; simp at hs2; omega
        | some M => exact ⟨M, rfl⟩
      have hm1M1 : m1 ≤ M1 := hs3 m1 M1 hsm hsM
      cases hvm : v.min with
      | none =>
        have hvM : v.max = none := by
          cases hmax : v.max with
          | none => rfl
          | some M =>
            rw [hmax] at hv2; rw [hvm] at hv1
            simp at hv1 hv2
            omega
        have e1 : MinMax.merge (fun a b : T => decide (a < b)) s v =
            ⟨s.len + v.len, s.min, s.max⟩ := by
          simp [MinMax.merge, mergeMin, mergeMax, hsm, hsM, hvm, hvM, optLt]
        rw [e1]
        refine ⟨?_, ?_, ?_⟩
        · rw [hsm]; simp; omega
        · rw [hsM]; simp; omega
        · exact hs3
      | some m2 =>
        have hvlen : 0 < v.len := by
          rw [hvm] at hv1
          simpa using hv1.mp (by simp)
        obtain ⟨M2, hvM⟩ : ∃ M, v.max = some M := by
          cases hmax : v.max with
          | none => rw [hmax] at hv2; simp at hv2; omega
          | some M => exact ⟨M, rfl⟩
        have hm2M2 : m2 ≤ M2 := hv3 m2 M2 hvm hvM
        have e1 : MinMax.merge (fun a b : T => decide (a < b)) s v =
            ⟨s.len + v.len,
              if m2 < m1 then some m2 else some m1,
              if M1 < M2 then some M2 else some M1⟩ := by
          simp only [MinMax.merge, mergeMin, mergeMax, hsm, hsM, hvm, hvM, optLt,
            Option.isNone_some, Option.isSome_some, Bool.false_or, Bool.true_and,
            decide_eq_true_eq]
        rw [e1]
        have hlen2 : 0 < s.len + v.len := by omega
        have hmin2 : (if m2 < m1 then some m2 else some m1).isSome = true := by
          split <;> rfl
        have hmax2 : (if M1 < M2 then some M2 else some M1).isSome = true := by
          split <;> rfl
        refine ⟨iff_of_true hmin2 hlen2, iff_of_true hmax2 hlen2, ?_⟩
        intro a b ha hb
        by_cases h21 : m2 < m1
        · rw [if_pos h21] at ha
          cases ha
          by_cases h12 : M1 < M2
          · rw [if_pos h12] at hb
            cases hb
            exact hm2M2
          · rw [if_neg h12] at hb
            cases hb
            exact le_trans h21.le hm1M1
        · rw [if_neg h21] at ha
          cases ha
          by_cases h12 : M1 < M2
          · rw [if_pos h12] at hb
            cases hb
            exact le_trans hm1M1 h12.le
          · rw [if_neg h12] at hb
            cases hb
            exact hm1M1

/-- Witness for C9 at a concrete reachable integer state. -/
theorem claim9_witness :
    ((MinMax.add (fun a b : ℤ => decide (a < b))
        (MinMax.add (fun a b : ℤ => decide (a < b)) (MinMax.new ℤ) 3) 1).min.isSome ↔
      0 < (MinMax.add (fun a b : ℤ => decide (a < b))
        (MinMax.add (fun a b : ℤ => decide (a < b)) (MinMax.new ℤ) 3) 1).len) ∧
    ((MinMax.add (fun a b : ℤ => decide (a < b))
        (MinMax.add (fun a b : ℤ => decide (a < b)) (MinMax.new ℤ) 3) 1).max.isSome ↔
      0 < (MinMax.add (fun a b : ℤ => decide (a < b))
        (MinMax.add (fun a b : ℤ => decide (a < b)) (MinMax.new ℤ) 3) 1).len) ∧
    ∀ a b : ℤ,
      (MinMax.add (fun a b : ℤ => decide (a < b))
        (MinMax.add (fun a b : ℤ => decide (a < b)) (MinMax.new ℤ) 3) 1).min = some a →
      (MinMax.add (fun a b : ℤ => decide (a < b))
        (MinMax.add (fun a b : ℤ => decide (a < b)) (MinMax.new ℤ) 3) 1).max = some b →
      a ≤ b :=
  claim9_minmax_invariant _
    (MinMax.Reachable.add 1 (MinMax.Reachable.add 3 MinMax.Reachable.new))

/-! ## C4: antimodes -/

theorem getD_last {α : Type} (cs : List α) (d : α) (h : cs ≠ []) :
    cs.getD (cs.length - 1) d = cs.getLast h := by
  have h2 := getD_append_len cs.dropLast (cs.getLast h) d
  rw [List.length_dropLast] at h2
  rw [List.dropLast_append_getLast h] at h2
  exact h2

theorem getD_last2 {α : Type} (cs : List α) (d : α) (h : cs ≠ []) (n : ℕ)
    (hn : n + 1 = cs.length) : cs.getD n d = cs.getLast h := by
  have h2 := getD_last cs d h
  have hn2 : n = cs.length - 1 := by omega
  rw [hn2]
  exact h2

theorem foldl_min_init (cs : List ℕ) :
    ∀ a b : ℕ, cs.foldl min (min a b) = min a (cs.foldl min b) := by
  induction cs with
  | nil => intro a b; rfl
  | cons c cs ih =>
    intro a b
    rw [List.foldl_cons, List.foldl_cons, min_assoc, ih]

theorem foldl_min_le_init (cs : List ℕ) : ∀ a : ℕ, cs.foldl min a ≤ a := by
  induction cs with
  | nil => intro a; exact le_refl a
  | cons c cs ih =>
    intro a
    rw [List.foldl_cons]
    exact le_trans (ih (min a c)) (min_le_left a c)

theorem runsAux_counts_le (rest : List ℚ) :
    ∀ (v : ℚ) (k c : ℕ), c ∈ (runsAux v k rest).map Prod.snd → c ≤ k + rest.length := by
  induction rest with
  | nil =>
    intro v k c hc
    simp [runsAux] at hc
    omega
  | cons x xs ih =>
    intro v k c hc
    rw [runsAux] at hc
    by_cases h : x = v
    · rw [if_pos h] at hc
      have := ih v (k + 1) c hc
      simp
      omega
    · rw [if_neg h] at hc
      simp only [List.map_cons, List.mem_cons] at hc
      rcases hc with hc | hc
      · simp
        omega
      · have := ih x 1 c hc
        simp
        omega

theorem antimodesLoop_spec (rest : List ℚ) :
    ∀ (rs : List (ℚ × ℕ)) (v : ℚ) (k low : ℕ),
      antimodesLoop (rs.map Prod.fst ++ [v]) (rs.map Prod.snd ++ [k]) rs.length low rest =
        ((rs ++ runsAux v k rest).map Prod.fst,
         (rs ++ runsAux v k rest).map Prod.snd,
         rs.length + (runsAux v k rest).length - 1,
         ((runsAux v k rest).dropLast.map Prod.snd).foldl min low) := by
  induction rest with
  | nil =>
    intro rs v k low
    simp [antimodesLoop, runsAux]
  | cons x xs ih =>
    intro rs v k low
    have hv : (rs.map Prod.fst ++ [v]).getD rs.length 0 = v := by
      have h := getD_append_len (rs.map Prod.fst) v 0
      rwa [List.length_map] at h
    have hk : (rs.map Prod.snd ++ [k]).getD rs.length 0 = k := by
      have h := getD_append_len (rs.map Prod.snd) k 0
      rwa [List.length_map] at h
    rw [antimodesLoop]
    by_cases hx : v = x
    · rw [if_pos (by rw [hv]; exact hx)]
      have hset : (rs.map Prod.snd ++ [k]).set rs.length
          ((rs.map Prod.snd ++ [k]).getD rs.length 0 + 1) = rs.map Prod.snd ++ [k + 1] := by
        rw [hk]
        have h := set_append_len (rs.map Prod.snd) k (k + 1)
        rwa [List.length_map] at h
      rw [hset, ih rs v (k + 1) low, runsAux, if_pos hx.symm]
    · rw [if_neg (by rw [hv]; exact hx)]
      have hrw : runsAux v k (x :: xs) = (v, k) :: runsAux x 1 xs := by
        rw [runsAux, if_neg (fun hxv => hx hxv.symm)]
      have e1 : rs.map Prod.fst ++ [v] ++ [x] = (rs ++ [(v, k)]).map Prod.fst ++ [x] := by
        simp
      have e2 : rs.map Prod.snd ++ [k] ++ [1] = (rs ++ [(v, k)]).map Prod.snd ++ [1] := by
        simp
      have e3 : rs.length + 1 = (rs ++ [(v, k)]).length := by simp
      rw [hk, e1, e2, e3, ih (rs ++ [(v, k)]) x 1 (if low > k then k else low), hrw]
      have hRne := runsAux_ne_nil xs x 1
      have hdl : ((v, k) :: runsAux x 1 xs).dropLast = (v, k) :: (runsAux x 1 xs).dropLast :=
        List.dropLast_cons_of_ne_nil hRne
      have hmin : (if low > k then k else low) = min low k := by split <;> omega
      have e4 : rs ++ [(v, k)] ++ runsAux x 1 xs = rs ++ (v, k) :: runsAux x 1 xs := by
        simp
      rw [hdl, List.map_cons, List.foldl_cons, hmin, e4]
      simp only [Prod.mk.injEq]
      refine ⟨trivial, trivial, ?_, trivial⟩
      simp

theorem antimodes_on_sorted_eq (first : ℚ) (rest : List ℚ)
    (hlen : 1 + rest.length < U32MAX) :
    antimodes_on_sorted (first :: rest) =
      (match ((runsAux first 1 rest).map Prod.snd).min? with
       | none => ([], 0, 0)
       | some m =>
         if (runsAux first 1 rest).length ≤ 1 then ([], 0, 0)
         else
           ((((runsAux first 1 rest).filter (fun r => r.2 == m)).map Prod.fst).take 10,
            (((runsAux first 1 rest).filter (fun r => r.2 == m)).map Prod.fst).length,
            m)) := by
  obtain ⟨p, R', hR⟩ : ∃ p R', runsAux first 1 rest = p :: R' := by
    cases h : runsAux first 1 rest with
    | nil => exact absurd h (runsAux_ne_nil rest first 1)
    | cons p R' => exact ⟨p, R', rfl⟩
  have hloop := antimodesLoop_spec rest [] first 1 U32MAX
  simp only [List.map_nil, List.nil_append, List.length_nil, Nat.zero_add] at hloop
  rw [hR] at hloop
  simp only [antimodes_on_sorted]
  rw [hloop, hR]
  cases R' with
  | nil =>
    simp only [List.map_cons, List.map_nil, List.length_cons, List.length_nil,
      List.dropLast_single, List.foldl_nil]
    norm_num
  | cons q R2 =>
    simp only [List.map_cons, List.length_cons]
    have hcs_ne : (p.2 :: q.2 :: List.map Prod.snd R2) ≠ [] := by simp
    have hgetD : (p.2 :: q.2 :: List.map Prod.snd R2).getD (R2.length + 1 + 1 - 1) 0 =
        (p.2 :: q.2 :: List.map Prod.snd R2).getLast hcs_ne := by
      refine getD_last2 _ 0 hcs_ne _ ?_
      simp
    have hdrop : List.map Prod.snd (p :: q :: R2).dropLast =
        (p.2 :: q.2 :: List.map Prod.snd R2).dropLast := by
      rw [List.map_dropLast]
      simp
    have hfold_all :
        min (List.foldl min U32MAX ((p.2 :: q.2 :: List.map Prod.snd R2).dropLast))
            ((p.2 :: q.2 :: List.map Prod.snd R2).getLast hcs_ne) =
          List.foldl min U32MAX (p.2 :: q.2 :: List.map Prod.snd R2) := by
      conv_rhs =>
        rw [← List.dropLast_append_getLast hcs_ne]
      rw [List.foldl_append, List.foldl_cons, List.foldl_nil]
    have hfold_M : List.foldl min U32MAX (p.2 :: q.2 :: List.map Prod.snd R2) =
        min U32MAX ((q.2 :: List.map Prod.snd R2).foldl min p.2) := by
      rw [List.foldl_cons, foldl_min_init]
    have hMle : (q.2 :: List.map Prod.snd R2).foldl min p.2 ≤ p.2 :=
      foldl_min_le_init _ p.2
    have hp2 : p.2 ≤ 1 + rest.length := by
      refine runsAux_counts_le rest first 1 p.2 ?_
      rw [hR]
      simp
    have hMlt : (q.2 :: List.map Prod.snd R2).foldl min p.2 < U32MAX := by
      omega
    have hminM : min U32MAX ((q.2 :: List.map Prod.snd R2).foldl min p.2) =
        (q.2 :: List.map Prod.snd R2).foldl min p.2 := by
      omega
    have hlow : (if R2.length + 1 + 1 - 1 > 0 ∧
          List.foldl min U32MAX (List.map Prod.snd (p :: q :: R2).dropLast) >
            (p.2 :: q.2 :: List.map Prod.snd R2).getD (R2.length + 1 + 1 - 1) 0 then
        (p.2 :: q.2 :: List.map Prod.snd R2).getD (R2.length + 1 + 1 - 1) 0
      else List.foldl min U32MAX (List.map Prod.snd (p :: q :: R2).dropLast)) =
        (q.2 :: List.map Prod.snd R2).foldl min p.2 := by
      rw [hgetD, hdrop]
      have hstep : (if R2.length + 1 + 1 - 1 > 0 ∧
            List.foldl min U32MAX ((p.2 :: q.2 :: List.map Prod.snd R2).dropLast) >
              (p.2 :: q.2 :: List.map Prod.snd R2).getLast hcs_ne then
          (p.2 :: q.2 :: List.map Prod.snd R2).getLast hcs_ne
        else List.foldl min U32MAX ((p.2 :: q.2 :: List.map Prod.snd R2).dropLast)) =
          min (List.foldl min U32MAX ((p.2 :: q.2 :: List.map Prod.snd R2).dropLast))
            ((p.2 :: q.2 :: List.map Prod.snd R2).getLast hcs_ne) := by
        split <;> omega
      rw [hstep, hfold_all, hfold_M, hminM]
    rw [hlow]
    have hmin2 : (p.2 :: q.2 :: List.map Prod.snd R2).min? =
        some ((q.2 :: List.map Prod.snd R2).foldl min p.2) := rfl
    simp only [hmin2]
    have hMne : ¬((q.2 :: List.map Prod.snd R2).foldl min p.2 = U32MAX) := by omega
    rw [if_neg hMne, if_neg (by omega : ¬R2.length + 1 + 1 ≤ 1)]
    have hzip : (p.2 :: q.2 :: List.map Prod.snd R2).zip (p.1 :: q.1 :: List.map Prod.fst R2) =
        List.map (fun r : ℚ × ℕ => (r.2, r.1)) (p :: q :: R2) := by
      have h := List.zip_map' (Prod.snd) (Prod.fst) (p :: q :: R2)
      simpa using h
    rw [hzip, List.filter_map, List.map_map]
    rfl

theorem runsAux_fst_head (rest : List ℚ) :
    ∀ (v : ℚ) (k : ℕ), ∃ k2 t, runsAux v k rest = (v, k2) :: t := by
  induction rest with
  | nil => intro v k; exact ⟨k, [], rfl⟩
  | cons x xs ih =>
    intro v k
    rw [runsAux]
    by_cases hx : x = v
    · rw [if_pos hx]
      exact ih v (k + 1)
    · rw [if_neg hx]
      exact ⟨k, runsAux x 1 xs, rfl⟩

theorem runsAux_fst_sorted (rest : List ℚ) :
    ∀ (v : ℚ) (k : ℕ), (v :: rest).Sorted (· ≤ ·) →
      ((runsAux v k rest).map Prod.fst).Sorted (· < ·) := by
  induction rest with
  | nil => intro v k _; simp [runsAux]
  | cons x xs ih =>
    intro v k hsort
    obtain ⟨hall, htail⟩ := List.sorted_cons.mp hsort
    rw [runsAux]
    by_cases hx : x = v
    · rw [if_pos hx]
      refine ih v (k + 1) ?_
      rw [← hx]
      exact htail
    · rw [if_neg hx, List.map_cons]
      have htails := ih x 1 htail
      obtain ⟨k2, t, hxt⟩ := runsAux_fst_head xs x 1
      rw [List.sorted_cons]
      refine ⟨?_, htails⟩
      intro b hb
      rw [hxt] at hb htails
      simp only [List.map_cons, List.mem_cons] at hb htails
      have hvx : v < x := lt_of_le_of_ne (hall x (by simp)) (fun h => hx h.symm)
      rcases hb with rfl | hb
      · exact hvx
      · have hxb := (List.sorted_cons.mp htails).1 b hb
        exact lt_trans hvx hxb

theorem antimodesSpec_sorted (l : List ℚ) :
    List.Sorted (· < ·) (antimodesSpec l).1 := by
  cases hsl : sortList l with
  | nil => simp [antimodesSpec, hsl, runsOf]
  | cons first rest =>
    have hsorted := sortList_sorted l
    rw [hsl] at hsorted
    have hRs : ((runsAux first 1 rest).map Prod.fst).Sorted (· < ·) :=
      runsAux_fst_sorted rest first 1 hsorted
    unfold antimodesSpec
    rw [hsl]
    simp only [runsOf]
    cases hm : ((runsAux first 1 rest).map Prod.snd).min? with
    | none => simp
    | some m =>
      simp only []
      by_cases hR1 : (runsAux first 1 rest).length ≤ 1
      · simp [hR1]
      · simp only [if_neg hR1]
        have hsub1 : ((runsAux first 1 rest).filter (fun r => r.2 == m)).Sublist
            (runsAux first 1 rest) := List.filter_sublist _
        have hsub2 := hsub1.map Prod.fst
        have hsub3 := List.take_sublist 10
          (((runsAux first 1 rest).filter (fun r => r.2 == m)).map Prod.fst)
        exact hRs.sublist (hsub3.trans hsub2)

theorem Unsorted.antimodes_ofList (l : List ℚ) (hlen : l.length < U32MAX) :
    (Unsorted.antimodes (Unsorted.ofList l)).1 = antimodesSpec l := by
  rw [Unsorted.ofList_eq]
  by_cases hl : l = []
  · subst hl; decide
  · have hE : l.isEmpty = false := by simp [hl]
    simp only [Unsorted.antimodes, hE, Bool.false_eq_true, if_false, Unsorted.sort]
    cases hs : sortList l with
    | nil =>
      exfalso
      have h2 := sortList_length l
      rw [hs] at h2
      simp at h2
      exact hl (List.length_eq_zero.mp h2.symm)
    | cons first rest =>
      have hlen2 : 1 + rest.length < U32MAX := by
        have h2 := sortList_length l
        rw [hs] at h2
        simp at h2
        omega
      rw [antimodes_on_sorted_eq first rest hlen2]
      unfold antimodesSpec
      rw [hs]
      simp only [runsOf]

/-- C4 (amended): for every dataset of length below `u32::MAX`,
`antimodes()` equals `antimodesSpec`: the distinct values whose run length
in the sorted buffer equals the minimal run length `minFreq`, in ascending
order (second conjunct), truncated to the first 10, with `count` the true
untruncated number of qualifying values and `occurrence = minFreq` — except
that a dataset that is empty *or has a single distinct value* yields
`([], 0, 0)` (the amendment; the claim allowed this for the empty dataset
only). -/
theorem claim4_antimodes_amended (l : List ℚ) (hlen : l.length < U32MAX) :
    (Unsorted.antimodes (Unsorted.ofList l)).1 = antimodesSpec l ∧
    List.Sorted (· < ·) (Unsorted.antimodes (Unsorted.ofList l)).1.1 := by
  have h1 := Unsorted.antimodes_ofList l hlen
  exact ⟨h1, by rw [h1]; exact antimodesSpec_sorted l⟩

/-- Witness for C4 at a concrete input with two distinct values. -/
theorem claim4_witness :
    ([1, 1, 2] : List ℚ).length < U32MAX ∧
    ((Unsorted.antimodes (Unsorted.ofList [1, 1, 2])).1 = antimodesSpec [1, 1, 2] ∧
      List.Sorted (· < ·) (Unsorted.antimodes (Unsorted.ofList [1, 1, 2])).1.1) :=
  ⟨by decide, claim4_antimodes_amended [1, 1, 2] (by decide)⟩
